import Mathlib

/-!
Verification of the media-sorter classification-and-naming engine
(`src/media_sorter.py`) against its specification.

The Python source is shallowly embedded below.  Strings are modelled as
`List Char` (with `String` wrappers mirroring the Python function
signatures); Python's regular-expression operations are modelled by
explicit recursive scanners that reproduce the leftmost, non-greedy /
greedy-with-backtracking semantics of the concrete patterns appearing in
the source.  Character classes are modelled over ASCII (Python's `re`
additionally case-folds some non-ASCII characters; no claim depends on
those).  Unbounded `while` loops (the version-probe loop) are embedded
with an explicit fuel argument, `none` standing for "still looping after
`fuel` probes".  Filesystem existence is an injected predicate
`String → Bool`, and the TMDB lookup is an injected function whose
outcome models success, an empty result list, or a raised exception.
-/

set_option maxRecDepth 8000

/-! ### Character helpers -/

/-- The whitespace class of Python's `\s` (and `str.strip`), restricted to
the six ASCII whitespace characters. -/
def isPySpace (c : Char) : Bool :=
  c == ' ' || c == '\t' || c == '\n' || c == '\r' || c == '\x0b' || c == '\x0c'

/-- ASCII decimal digit, Python's `\d` restricted to ASCII. -/
def isDigit (c : Char) : Bool :=
  '0' ≤ c && c ≤ '9'

/-- Numeric value of an ASCII digit (what `int()` computes per digit). -/
def digitVal (c : Char) : Nat :=
  c.toNat - '0'.toNat

/-- Lower-case a list of characters (`str.lower`, ASCII). -/
def toLowerL (l : List Char) : List Char :=
  l.map Char.toLower

/-- Two adjacent characters are not both whitespace (used to state that
`\s+` collapsing leaves no whitespace runs). -/
def noTwoWs (a b : Char) : Prop :=
  isPySpace a = false ∨ isPySpace b = false

/-! ### `os.path.splitext` and `pathlib` stem/suffix -/

/-- Last index at which `p` holds, scanning left to right and keeping the
latest hit (Python's `str.rfind`). -/
def rfindIdxAux (p : Char → Bool) : List Char → Nat → Option Nat → Option Nat
  | [], _, acc => acc
  | c :: rest, i, acc => rfindIdxAux p rest (i + 1) (if p c then some i else acc)

def rfindIdx (p : Char → Bool) (l : List Char) : Option Nat :=
  rfindIdxAux p l 0 none

/-- The root part of CPython's `os.path.splitext`: split at the last dot
that lies after the last `/`, provided some non-dot character precedes it
within the basename (leading dots of a basename never start an
extension). -/
def splitextRoot (l : List Char) : List Char :=
  match rfindIdx (fun c => c == '.') l with
  | none => l
  | some di =>
    let si : Nat :=
      match rfindIdx (fun c => c == '/') l with
      | none => 0
      | some j => j + 1
    if di < si then l
    else if ((l.drop si).take (di - si)).any (fun c => c != '.') then l.take di
    else l

/-- `pathlib.PurePath.stem`: the name with its suffix removed, where the
suffix starts at the last dot provided that dot is neither first nor
last. -/
def pstem (l : List Char) : List Char :=
  match rfindIdx (fun c => c == '.') l with
  | none => l
  | some i => if 0 < i ∧ i < l.length - 1 then l.take i else l

/-- `pathlib.PurePath.suffix` under the same rule as `pstem`. -/
def psuffix (l : List Char) : List Char :=
  match rfindIdx (fun c => c == '.') l with
  | none => []
  | some i => if 0 < i ∧ i < l.length - 1 then l.drop i else []

/-! ### `re.sub(r'\[.*?\]', '', s)` and `re.sub(r'\(.*?\)', '', s)`

`.` does not match a newline, so a bracket opened before a newline and
closed only after it never matches.  The scanner below carries the
characters seen since the candidate opening bracket (reversed) and emits
them verbatim when the match is blocked by a newline or by the end of the
string; a closing bracket discards the buffer, which is exactly the
leftmost non-greedy match of the Python pattern. -/

def rbAux (o c : Char) : Option (List Char) → List Char → List Char
  | none, [] => []
  | some buf, [] => buf.reverse
  | none, x :: rest =>
    if x == o then rbAux o c (some [x]) rest
    else x :: rbAux o c none rest
  | some buf, x :: rest =>
    if x == c then rbAux o c none rest
    else if x == '\n' then buf.reverse ++ x :: rbAux o c none rest
    else rbAux o c (some (x :: buf)) rest

def removeBrackets (o c : Char) (l : List Char) : List Char :=
  rbAux o c none l

/-! ### Case-insensitive literal-token removal
(`re.sub(tok, '', s, flags=re.IGNORECASE)` for a literal `tok`) -/

/-- `tok` is a case-insensitive prefix of `l` (ASCII case folding, as in
the junk-token patterns of `clean_name`). -/
def ciPrefixOf : List Char → List Char → Bool
  | [], _ => true
  | _ :: _, [] => false
  | c :: cs, x :: xs => (Char.toLower x == Char.toLower c) && ciPrefixOf cs xs

/-- `tok` occurs case-insensitively somewhere in `l`. -/
def ciContains (tok : List Char) : List Char → Bool
  | [] => ciPrefixOf tok []
  | c :: rest => ciPrefixOf tok (c :: rest) || ciContains tok rest

/-- One `re.sub` pass removing every non-overlapping, leftmost,
case-insensitive occurrence of the literal `tok`.  When a match starts at
the current character the whole occurrence is consumed without being
emitted: the first character at once and the remaining `tok.length - 1`
characters through the skip counter, during which no new match is
sought — exactly the non-overlapping semantics of `re.sub`. -/
def rmAux (tok : List Char) : Nat → List Char → List Char
  | _ + 1, [] => []
  | skip + 1, _ :: rest => rmAux tok skip rest
  | 0, [] => []
  | 0, c :: rest =>
    if ciPrefixOf tok (c :: rest) then rmAux tok (tok.length - 1) rest
    else c :: rmAux tok 0 rest

def removeTok (tok l : List Char) : List Char :=
  rmAux tok 0 l

/-! ### Whitespace collapse and strip
(`re.sub(r'\s+', ' ', s).strip()` and Python `str.strip`) -/

/-- Collapse every run of whitespace to a single space.  The Boolean state
records whether the previous character belonged to a whitespace run. -/
def collapseWsAux : Bool → List Char → List Char
  | _, [] => []
  | prevWs, c :: rest =>
    if isPySpace c then
      if prevWs then collapseWsAux true rest
      else ' ' :: collapseWsAux true rest
    else c :: collapseWsAux false rest

def collapseWs (l : List Char) : List Char :=
  collapseWsAux false l

/-- Python `str.strip()`: drop leading and trailing whitespace. -/
def stripL (l : List Char) : List Char :=
  ((l.dropWhile isPySpace).reverse.dropWhile isPySpace).reverse

/-! ### `MediaParser.clean_name` -/

/-- The junk-token literals of `clean_name`, in source order (the two
bracket patterns precede them and are handled by `removeBrackets`).
`H\.264` is the literal `H.264`. -/
def junkTokens : List (List Char) :=
  ["1080p".data, "720p".data, "2160p".data, "4K".data,
   "BluRay".data, "BRRip".data, "WEB-DL".data, "WEBRip".data, "HDTV".data,
   "x264".data, "x265".data, "H.264".data, "HEVC".data,
   "AAC".data, "AC3".data, "DTS".data,
   "YIFY".data, "RARBG".data, "ETRG".data]

/-- `re.sub(r'[\._]', ' ', ·)` on one character. -/
def replDotUnd (c : Char) : Char :=
  if c == '.' || c == '_' then ' ' else c

/-- `MediaParser.clean_name`, step by step in source order: strip the
extension, remove `[...]` then `(...)`, remove each junk token
case-insensitively, replace `.` and `_` by spaces, collapse whitespace and
strip. -/
def cleanNameL (l : List Char) : List Char :=
  let s1 := splitextRoot l
  let s2 := removeBrackets '[' ']' s1
  let s3 := removeBrackets '(' ')' s2
  let s4 := junkTokens.foldl (fun acc tok => removeTok tok acc) s3
  let s5 := s4.map replDotUnd
  stripL (collapseWs s5)

def clean_name (s : String) : String :=
  String.mk (cleanNameL s.data)

/-! ### `MediaParser.is_tv_show` -/

def isSChar (c : Char) : Bool := c == 'S' || c == 's'

def isEChar (c : Char) : Bool := c == 'E' || c == 'e'

def isXChar (c : Char) : Bool := c == 'x' || c == 'X'

/-- The separator class `[\s\._-]` of the third TV pattern. -/
def isSepChar (c : Char) : Bool :=
  isPySpace c || c == '.' || c == '_' || c == '-'

/-- A trailing `(\d{1,2})` group: greedily take two digits, else one. -/
def epDigits : List Char → Option Nat
  | c1 :: c2 :: _ =>
    if isDigit c1 then
      if isDigit c2 then some (10 * digitVal c1 + digitVal c2)
      else some (digitVal c1)
    else none
  | [c1] => if isDigit c1 then some (digitVal c1) else none
  | [] => none

/-- After the season group of `[Ss](\d{1,2})[Ee](\d{1,2})`: an `[Ee]`
followed by the episode group. -/
def afterSeason (se : Nat) : List Char → Option (Nat × Nat)
  | e :: rest => if isEChar e then (epDigits rest).map (fun ep => (se, ep)) else none
  | [] => none

/-- Match `[Ss](\d{1,2})[Ee](\d{1,2})` at the head of the list: the season
group greedily takes two digits and backtracks to one if `[Ee]` then
fails. -/
def matchP1At : List Char → Option (Nat × Nat)
  | c :: d1 :: rest =>
    if isSChar c && isDigit d1 then
      match rest with
      | d2 :: rest2 =>
        if isDigit d2 then
          match afterSeason (10 * digitVal d1 + digitVal d2) rest2 with
          | some r => some r
          | none => afterSeason (digitVal d1) rest
        else afterSeason (digitVal d1) rest
      | [] => none
    else none
  | _ => none

/-- After the season group of `(\d{1,2})x(\d{1,2})`. -/
def afterX (se : Nat) : List Char → Option (Nat × Nat)
  | x :: rest => if isXChar x then (epDigits rest).map (fun ep => (se, ep)) else none
  | [] => none

/-- Match `(\d{1,2})x(\d{1,2})` (case-insensitive `x`) at the head. -/
def matchP2At : List Char → Option (Nat × Nat)
  | d1 :: rest =>
    if isDigit d1 then
      match rest with
      | d2 :: rest2 =>
        if isDigit d2 then
          match afterX (10 * digitVal d1 + digitVal d2) rest2 with
          | some r => some r
          | none => afterX (digitVal d1) rest
        else afterX (digitVal d1) rest
      | [] => none
    else none
  | [] => none

/-- Consume a case-insensitive literal. -/
def dropCILit : List Char → List Char → Option (List Char)
  | [], s => some s
  | _ :: _, [] => none
  | c :: cs, x :: xs => if Char.toLower x == Char.toLower c then dropCILit cs xs else none

/-- After the season group of the `Season ... Episode ...` pattern:
`[\s\._-]*[Ee]pisode[\s\._-]*(\d{1,2})`.  The separator stars can be taken
maximally because no separator can begin the following literal or digit. -/
def p3After (se : Nat) (l : List Char) : Option (Nat × Nat) :=
  match dropCILit "episode".data (l.dropWhile isSepChar) with
  | none => none
  | some r => (epDigits (r.dropWhile isSepChar)).map (fun ep => (se, ep))

/-- Match `[Ss]eason[\s\._-]*(\d{1,2})[\s\._-]*[Ee]pisode[\s\._-]*(\d{1,2})`
at the head, with the same greedy-then-backtrack season group. -/
def matchP3At (l : List Char) : Option (Nat × Nat) :=
  match dropCILit "season".data l with
  | none => none
  | some r =>
    match r.dropWhile isSepChar with
    | d1 :: rest =>
      if isDigit d1 then
        match rest with
        | d2 :: rest2 =>
          if isDigit d2 then
            match p3After (10 * digitVal d1 + digitVal d2) rest2 with
            | some x => some x
            | none => p3After (digitVal d1) rest
          else p3After (digitVal d1) rest
        | [] => none
      else none
    | [] => none

/-- `re.search`: try the matcher at every position, leftmost hit wins;
returns the match start and the two captured numbers. -/
def searchPat (m : List Char → Option (Nat × Nat)) : List Char → Nat → Option (Nat × Nat × Nat)
  | [], _ => none
  | x :: rest, i =>
    match m (x :: rest) with
    | some (a, b) => some (i, a, b)
    | none => searchPat m rest (i + 1)

/-- The structured result of `is_tv_show` (`show_name`, `season`,
`episode`). -/
structure TvInfo where
  show_name : String
  season : Nat
  episode : Nat
deriving DecidableEq, Repr

/-- `MediaParser.is_tv_show`: the three TV patterns are tried in source
order, first matching pattern wins; on a match the show name is the text
before the match start, `str.strip`ped and then `clean_name`d.  `none`
models the Python `(False, None)` result. -/
def isTvShowL (name : List Char) : Option TvInfo :=
  match searchPat matchP1At name 0 with
  | some (i, se, ep) => some ⟨String.mk (cleanNameL (stripL (name.take i))), se, ep⟩
  | none =>
    match searchPat matchP2At name 0 with
    | some (i, se, ep) => some ⟨String.mk (cleanNameL (stripL (name.take i))), se, ep⟩
    | none =>
      match searchPat matchP3At name 0 with
      | some (i, se, ep) => some ⟨String.mk (cleanNameL (stripL (name.take i))), se, ep⟩
      | none => none

def is_tv_show (name : String) : Option TvInfo :=
  isTvShowL name.data

/-- The value `int(group)` of a 1- or 2-digit capture group. -/
def natOfDigits : List Char → Nat
  | [c] => digitVal c
  | [c1, c2] => 10 * digitVal c1 + digitVal c2
  | _ => 0

/-! ### `MediaParser.search_tmdb` and `MediaParser.get_proper_name` -/

/-- One TMDB search result; `none` fields model missing dictionary keys
(`dict.get` falls back to its default). -/
structure TmdbResult where
  name : Option String
  title : Option String
  release_date : Option String

/-- Outcome of the injected HTTP lookup: `raises` models any exception
(network error, timeout, non-2xx status, malformed JSON) — all are caught
inside `search_tmdb`; `returns` models a parsed `results` list. -/
inductive LookupOutcome where
  | raises : LookupOutcome
  | returns : List TmdbResult → LookupOutcome

/-- `MediaParser.search_tmdb`: `none` without an API key; exceptions are
swallowed to `none`; an empty result list gives `none`; otherwise the
first result is returned. -/
def search_tmdb (apiKey : String) (lookup : String → String → LookupOutcome)
    (query mediaType : String) : Option TmdbResult :=
  if apiKey = "" then none
  else
    match lookup query mediaType with
    | LookupOutcome.raises => none
    | LookupOutcome.returns results =>
      match results with
      | [] => none
      | r :: _ => some r

/-- `MediaParser.get_proper_name`: clean the raw name, consult TMDB, fall
back to the cleaned name; movies get ` (year)` appended when the first
result carries a nonempty 4-character release-date prefix. -/
def get_proper_name (apiKey : String) (lookup : String → String → LookupOutcome)
    (name mediaType : String) : String :=
  let cleaned := clean_name name
  if mediaType = "tv" then
    match search_tmdb apiKey lookup cleaned "tv" with
    | some r => r.name.getD cleaned
    | none => cleaned
  else
    match search_tmdb apiKey lookup cleaned "movie" with
    | some r =>
      let title := r.title.getD cleaned
      let year := (r.release_date.getD "").take 4
      if year = "" then title else title ++ " (" ++ year ++ ")"
    | none => cleaned

/-! ### `MediaSorter.get_unique_filename` -/

/-- The version-1 candidate name: `base.{resolution}{ext}` with a known
resolution, else `base{ext}`. -/
def candName (base : String) (res : Option String) (ext : String) : String :=
  match res with
  | some r => base ++ "." ++ r ++ ext
  | none => base ++ ext

/-- The versioned candidate name used from version 2 on:
`base.{resolution}.v{v}{ext}`, or `base.v{v}{ext}` without resolution. -/
def versionName (base : String) (res : Option String) (v : Nat) (ext : String) : String :=
  match res with
  | some r => base ++ "." ++ r ++ ".v" ++ toString v ++ ext
  | none => base ++ ".v" ++ toString v ++ ext

/-- `pathlib` directory join. -/
def pjoin (dir name : String) : String :=
  dir ++ "/" ++ name

/-- The `while True` version-probe loop of `get_unique_filename`, probing
`v, v+1, v+2, …`.  The source loop is unbounded; `fuel` bounds the
embedding and `none` models a loop still running after `fuel` probes. -/
def probeLoop (ex : String → Bool) (dir base : String) (res : Option String) (ext : String) :
    Nat → Nat → Option String
  | 0, _ => none
  | fuel + 1, v =>
    if ex (pjoin dir (versionName base res v ext)) then
      probeLoop ex dir base res ext fuel (v + 1)
    else some (pjoin dir (versionName base res v ext))

/-- `MediaSorter.get_unique_filename`: return the version-1 candidate when
no file exists there, otherwise probe versions 2, 3, 4, … .  (The source's
`existing_has_resolution` branch is a literal `pass` and has no effect.)
`ex` is the injected filesystem-existence probe. -/
def get_unique_filename (ex : String → Bool) (dest_folder base_name extension : String)
    (resolution : Option String) (fuel : Nat) : Option String :=
  if ex (pjoin dest_folder (candName base_name resolution extension)) then
    probeLoop ex dest_folder base_name resolution extension fuel 2
  else some (pjoin dest_folder (candName base_name resolution extension))

/-- The existence predicate under which every path exists. -/
def allPathsExist : String → Bool := fun _ => true

/-- The claim C9 asserts the probe loop surfaces a hard failure instead of
looping when collisions never end; under the all-paths-exist filesystem
the embedded loop instead yields no result at every probe depth. -/
def probeDivergesAllExist : Prop :=
  ∀ fuel : Nat, get_unique_filename allPathsExist "d" "b" ".mkv" (some "1080p") fuel = none

/-! ### `MediaSorter.match_subtitle_to_video` -/

/-- The subtitle-tag alternatives of `\.(eng|english|forced|sdh|cc|hi)$`,
in alternation order.  At most one alternative can match the end of any
string (their last characters and dot positions are pairwise
incompatible), so removing the first suffix found is exactly the Python
substitution. -/
def subTagList : List (List Char) :=
  ["eng".data, "english".data, "forced".data, "sdh".data, "cc".data, "hi".data]

/-- `re.sub(r'\.(eng|english|forced|sdh|cc|hi)$', '', ·)`: strip one
trailing `.tag` if present. -/
def stripSubTag (l : List Char) : List Char :=
  match subTagList.find? (fun t => List.isSuffixOf ('.' :: t) l) with
  | some t => l.take (l.length - (t.length + 1))
  | none => l

/-- Python's substring test `pat in s`: some suffix of `s` starts with
`pat` (the empty pattern is contained in every string, as in Python). -/
def containsSub (pat : List Char) : List Char → Bool
  | [] => pat.isEmpty
  | c :: rest => List.isPrefixOf pat (c :: rest) || containsSub pat rest

/-- `subtitle_path.stem.lower()`. -/
def subNameOf (sub : String) : List Char :=
  toLowerL (pstem sub.data)

/-- The stem with one trailing language/variant tag stripped
(`sub_name_clean`). -/
def subCleanOf (sub : String) : List Char :=
  stripSubTag (subNameOf sub)

/-- `video.stem.lower()`. -/
def videoNameOf (v : String) : List Char :=
  toLowerL (pstem v.data)

/-- The first loop's test of `match_subtitle_to_video`:
`sub_name_clean == video_name or sub_name == video_name`. -/
def ruleAB (sub v : String) : Bool :=
  subCleanOf sub == videoNameOf v || subNameOf sub == videoNameOf v

/-- The second loop's test: `sub_name_clean in video_name or video_name in
sub_name_clean` (substring containment either way). -/
def ruleC (sub v : String) : Bool :=
  containsSub (subCleanOf sub) (videoNameOf v)
    || containsSub (videoNameOf v) (subCleanOf sub)

/-- `MediaSorter.match_subtitle_to_video`: one pass testing exact equality
(stripped or unstripped) candidate by candidate, then a second pass
testing containment; `none` when no candidate matches. -/
def match_subtitle_to_video (sub : String) (videos : List String) : Option String :=
  match videos.find? (fun v => ruleAB sub v) with
  | some v => some v
  | none => videos.find? (fun v => ruleC sub v)

/-- The matching procedure as the specification words it (rule-major
order): rule (a) — stripped equality — across all candidates first, then
rule (b) — unstripped equality — across all candidates, then rule (c).
Stated only for comparison with `match_subtitle_to_video`. -/
def matchSubtitleRuleMajor (sub : String) (videos : List String) : Option String :=
  match videos.find? (fun v => subCleanOf sub == videoNameOf v) with
  | some v => some v
  | none =>
    match videos.find? (fun v => subNameOf sub == videoNameOf v) with
    | some v => some v
    | none => videos.find? (fun v => ruleC sub v)

/-! ### `MediaSorter.copy_subtitles` -/

/-- The language/variant filename suffix computed inside `copy_subtitles`
from the lowered subtitle stem: a language part from the first matching
`\.(eng|english)`-style search and an appended `.forced`/`.sdh` variant
part. -/
def subLangSuffix (stem : List Char) : List Char :=
  let lang :=
    if containsSub ".eng".data stem || containsSub ".english".data stem then ".en".data
    else if containsSub ".spa".data stem || containsSub ".spanish".data stem then ".es".data
    else if containsSub ".fre".data stem || containsSub ".french".data stem then ".fr".data
    else if containsSub ".ger".data stem || containsSub ".german".data stem then ".de".data
    else []
  let variant :=
    if containsSub ".forced".data stem then ".forced".data
    else if containsSub ".sdh".data stem || containsSub ".cc".data stem
        || containsSub ".hi".data stem then ".sdh".data
    else []
  lang ++ variant

/-- The destination path `copy_subtitles` chooses for one subtitle file:
the video's base name plus resolution, language/variant suffix and the
subtitle's own extension; on a collision it defers to
`get_unique_filename`. -/
def subtitleDest (ex : String → Bool) (dest_folder video_name_base : String)
    (resolution : Option String) (sub : String) (fuel : Nat) : Option String :=
  let subExt := String.mk (psuffix sub.data)
  let langSuffix := String.mk (subLangSuffix (toLowerL (pstem sub.data)))
  let newName :=
    match resolution with
    | some r => video_name_base ++ "." ++ r ++ langSuffix ++ subExt
    | none => video_name_base ++ langSuffix ++ subExt
  if ex (pjoin dest_folder newName) then
    get_unique_filename ex dest_folder (video_name_base ++ langSuffix) subExt resolution fuel
  else some (pjoin dest_folder newName)

/-- `MediaSorter.copy_subtitles` as a relocation-instruction producer: one
`(source, destination)` instruction per subtitle file found — every
subtitle in the list is relocated; `match_subtitle_to_video` is not
consulted anywhere in the source of `copy_subtitles`. -/
def copy_subtitles (ex : String → Bool) (dest_folder video_name_base : String)
    (resolution : Option String) (fuel : Nat) (subs : List String) :
    List (String × Option String) :=
  subs.map (fun f => (f, subtitleDest ex dest_folder video_name_base resolution f fuel))

/-- Some occurrence of the opening character `o` is followed, later in the
list, by the closing character `c` (the situation in which a
`removeBrackets` pass can remove something). -/
def hasPair (o c : Char) : List Char → Bool
  | [] => false
  | x :: rest => (x == o && rest.any (fun y => y == c)) || hasPair o c rest

/-! ## Helper lemmas -/

/-- A returned probe-loop path never exists under `ex`. -/
theorem probeLoop_free_of_some (ex : String → Bool) (dir base : String) (res : Option String)
    (ext : String) :
    ∀ fuel v p, probeLoop ex dir base res ext fuel v = some p → ex p = false := by
  intro fuel
  induction fuel with
  | zero => intro v p h; simp [probeLoop] at h
  | succ n ih =>
    intro v p h
    rw [probeLoop] at h
    cases hx : ex (pjoin dir (versionName base res v ext)) with
    | true => rw [hx] at h; simp at h; exact ih _ _ h
    | false =>
      rw [hx] at h
      simp at h
      rw [← h]
      exact hx

/-- The probe loop returns the first (smallest) free version. -/
theorem probeLoop_min (ex : String → Bool) (dir base : String) (res : Option String)
    (ext : String) :
    ∀ fuel v tgt, v ≤ tgt → tgt < v + fuel →
      (∀ w, v ≤ w → w < tgt → ex (pjoin dir (versionName base res w ext)) = true) →
      ex (pjoin dir (versionName base res tgt ext)) = false →
      probeLoop ex dir base res ext fuel v = some (pjoin dir (versionName base res tgt ext)) := by
  intro fuel
  induction fuel with
  | zero => intro v tgt h1 h2 _ _; omega
  | succ n ih =>
    intro v tgt h1 h2 hall hfree
    rw [probeLoop]
    rcases Nat.eq_or_lt_of_le h1 with heq | hlt
    · subst heq; rw [hfree]; simp
    · have hv : ex (pjoin dir (versionName base res v ext)) = true := hall v le_rfl hlt
      rw [hv]
      simp only [if_true]
      exact ih (v + 1) tgt hlt (by omega) (fun w hw1 hw2 => hall w (by omega) hw2) hfree

/-- Under the all-paths-exist filesystem the probe loop yields nothing at
every fuel (it models a loop that never returns). -/
theorem probeLoop_allExist (dir base : String) (res : Option String) (ext : String) :
    ∀ fuel v, probeLoop allPathsExist dir base res ext fuel v = none := by
  intro fuel
  induction fuel with
  | zero => intro v; rfl
  | succ n ih =>
    intro v
    rw [probeLoop]
    simpa [allPathsExist] using ih (v + 1)

theorem getU_allExist_none (dir base ext : String) (res : Option String) (fuel : Nat) :
    get_unique_filename allPathsExist dir base ext res fuel = none := by
  unfold get_unique_filename
  simp [allPathsExist, probeLoop_allExist]

/-- `List.find?` decomposition: a hit splits the list, everything earlier
failing the test. -/
theorem find_eq_some_split {α : Type} (p : α → Bool) :
    ∀ (l : List α) (v : α), l.find? p = some v →
      p v = true ∧ ∃ l1 l2, l = l1 ++ v :: l2 ∧ ∀ w ∈ l1, p w = false := by
  intro l
  induction l with
  | nil => intro v h; simp [List.find?] at h
  | cons x rest ih =>
    intro v h
    rw [List.find?] at h
    cases hx : p x with
    | true =>
      rw [hx] at h
      simp at h
      subst h
      exact ⟨hx, [], rest, rfl, by simp⟩
    | false =>
      rw [hx] at h
      obtain ⟨hv, l1, l2, heq, hall⟩ := ih v h
      refine ⟨hv, x :: l1, l2, by rw [heq]; rfl, ?_⟩
      intro w hw
      rw [List.mem_cons] at hw
      rcases hw with rfl | hw
      · exact hx
      · exact hall w hw

/-! ## Claim theorems -/

/-- C1: `get_unique_filename` returns the version-1 candidate when it does
not exist; otherwise it probes versions 2, 3, 4, … and returns the first
(smallest) free version; the returned path never exists at decision time;
and two sequential calls against a filesystem that records the first
returned path as existing never return the same path. -/
theorem C1_unique_path (ex : String → Bool) (dir base ext : String) (res : Option String)
    (fuel : Nat) :
    (ex (pjoin dir (candName base res ext)) = false →
      get_unique_filename ex dir base ext res fuel = some (pjoin dir (candName base res ext)))
    ∧ (∀ p, get_unique_filename ex dir base ext res fuel = some p → ex p = false)
    ∧ (∀ v, 2 ≤ v → v < fuel + 2 →
        ex (pjoin dir (candName base res ext)) = true →
        (∀ w, 2 ≤ w → w < v → ex (pjoin dir (versionName base res w ext)) = true) →
        ex (pjoin dir (versionName base res v ext)) = false →
        get_unique_filename ex dir base ext res fuel
          = some (pjoin dir (versionName base res v ext)))
    ∧ (∀ p q, get_unique_filename ex dir base ext res fuel = some p →
        get_unique_filename (fun s => ex s || s == p) dir base ext res fuel = some q →
        q ≠ p) := by
  have key : ∀ (e : String → Bool) (p : String),
      get_unique_filename e dir base ext res fuel = some p → e p = false := by
    intro e p h
    unfold get_unique_filename at h
    cases hc : e (pjoin dir (candName base res ext)) with
    | true =>
      rw [hc] at h
      simp at h
      exact probeLoop_free_of_some e dir base res ext fuel 2 p h
    | false =>
      rw [hc] at h
      simp at h
      rw [← h]
      exact hc
  refine ⟨?_, key ex, ?_, ?_⟩
  · intro h
    unfold get_unique_filename
    simp [h]
  · intro v h2 hfuel hc hall hfree
    unfold get_unique_filename
    rw [hc]
    simp only [if_true]
    exact probeLoop_min ex dir base res ext fuel 2 v h2 (by omega)
      (fun w hw1 hw2 => hall w hw1 hw2) hfree
  · intro p q h1 h2
    have hq := key (fun s => ex s || s == p) q h2
    simp only [Bool.or_eq_false_iff] at hq
    intro hqp
    subst hqp
    simp at hq

/-- C1 witness: with `b.1080p.mkv` and `b.1080p.v2.mkv` existing, the
minimality part of `C1_unique_path` yields the `.v3` path. -/
theorem C1_unique_path_witness :
    get_unique_filename (fun s => s == "d/b.1080p.mkv" || s == "d/b.1080p.v2.mkv")
      "d" "b" ".mkv" (some "1080p") 5 = some "d/b.1080p.v3.mkv" := by
  have h := (C1_unique_path (fun s => s == "d/b.1080p.mkv" || s == "d/b.1080p.v2.mkv")
      "d" "b" ".mkv" (some "1080p") 5).2.2.1 3 (by omega) (by omega) (by decide)
    (fun w hw1 hw2 => by
      have hw : w = 2 := by omega
      subst hw
      decide)
    (by decide)
  rw [h]
  decide

/-- C2: `get_proper_name` (the title resolver) never propagates a lookup
failure: with no API key configured, or a lookup that raises (network
error, timeout, malformed response), or a lookup returning an empty result
list, it returns exactly the cleaned (normalized) title — no year is
appended for movies. -/
theorem C2_resolve_swallows_failures (apiKey : String)
    (lookup : String → String → LookupOutcome) (name mt : String)
    (h : apiKey = ""
      ∨ lookup (clean_name name) (if mt = "tv" then "tv" else "movie") = LookupOutcome.raises
      ∨ lookup (clean_name name) (if mt = "tv" then "tv" else "movie")
          = LookupOutcome.returns []) :
    get_proper_name apiKey lookup name mt = clean_name name := by
  have key : ∀ q t, (apiKey = "" ∨ lookup q t = LookupOutcome.raises
      ∨ lookup q t = LookupOutcome.returns []) →
      search_tmdb apiKey lookup q t = none := by
    intro q t hqt
    unfold search_tmdb
    rcases hqt with hk | hr | hr
    · simp [hk]
    · by_cases hk : apiKey = ""
      · simp [hk]
      · simp [hk, hr]
    · by_cases hk : apiKey = ""
      · simp [hk]
      · simp [hk, hr]
  unfold get_proper_name
  by_cases hmt : mt = "tv"
  · rw [if_pos hmt] at h
    rw [if_pos hmt, key _ _ h]
  · rw [if_neg hmt] at h
    rw [if_neg hmt, key _ _ h]

/-- C2 witness: a raising lookup degrades to the cleaned title. -/
theorem C2_resolve_swallows_failures_witness :
    get_proper_name "key" (fun _ _ => LookupOutcome.raises) "Some.Movie.2019" "movie"
      = clean_name "Some.Movie.2019" :=
  C2_resolve_swallows_failures "key" (fun _ _ => LookupOutcome.raises) "Some.Movie.2019"
    "movie" (Or.inr (Or.inl rfl))

/-- C3: evaluation at the failing input.  `match_subtitle_to_video`
returns `none` for the subtitle (no candidate matches under any rule),
yet `copy_subtitles` still emits a relocation instruction renaming it to
the episode's base name — the matcher's result gates nothing, so an
unmatched subtitle is not left in place. -/
theorem C3_unmatched_subtitle_still_relocated :
    match_subtitle_to_video "unrelated.srt" ["Show Name - S01E01.1080p.mkv"] = none
    ∧ copy_subtitles (fun _ => false) "dest" "Show Name - S01E01" (some "1080p") 5
        ["unrelated.srt"]
      = [("unrelated.srt", some "dest/Show Name - S01E01.1080p.srt")] := by
  constructor
  · decide
  · decide

/-- C5 counterexample: the claim says rule (a) — stripped equality — is
tested across all candidates before rule (b); the code instead tests (a)
and (b) together per candidate.  Subtitle `x.eng.srt` against
`[x.eng.mkv, x.mkv]`: the code returns `x.eng.mkv` (first candidate, via
unstripped equality) while the claimed rule-major policy returns `x.mkv`
(the only rule-(a) hit). -/
theorem C5_rule_order_counterexample :
    match_subtitle_to_video "x.eng.srt" ["x.eng.mkv", "x.mkv"] = some "x.eng.mkv"
    ∧ matchSubtitleRuleMajor "x.eng.srt" ["x.eng.mkv", "x.mkv"] = some "x.mkv"
    ∧ ("x.eng.mkv" : String) ≠ "x.mkv" := by
  refine ⟨by decide, by decide, by decide⟩

/-- C5 (amended): `match_subtitle_to_video` makes one pass testing rules
(a) and (b) together — first candidate equal to the stripped or the
unstripped subtitle base name — and only if that pass fails a second pass
testing (c) substring containment, returning its first hit; it returns
`none` exactly when no candidate satisfies any rule. -/
theorem C5_match_two_pass (sub : String) (videos : List String) :
    (∀ v, match_subtitle_to_video sub videos = some v →
      ∃ l1 l2, videos = l1 ++ v :: l2 ∧
        ((ruleAB sub v = true ∧ ∀ w ∈ l1, ruleAB sub w = false)
          ∨ (ruleC sub v = true ∧ (∀ w ∈ videos, ruleAB sub w = false)
              ∧ ∀ w ∈ l1, ruleC sub w = false)))
    ∧ (match_subtitle_to_video sub videos = none ↔
        ∀ v ∈ videos, ruleAB sub v = false ∧ ruleC sub v = false) := by
  constructor
  · intro v h
    unfold match_subtitle_to_video at h
    cases hAB : videos.find? (fun w => ruleAB sub w) with
    | some w =>
      rw [hAB] at h
      simp at h
      subst h
      obtain ⟨hv, l1, l2, heq, hall⟩ := find_eq_some_split _ videos w hAB
      exact ⟨l1, l2, heq, Or.inl ⟨hv, hall⟩⟩
    | none =>
      rw [hAB] at h
      obtain ⟨hv, l1, l2, heq, hall⟩ := find_eq_some_split _ videos v h
      have hnone := List.find?_eq_none.mp hAB
      exact ⟨l1, l2, heq, Or.inr ⟨hv,
        fun w hw => by simpa using hnone w hw, hall⟩⟩
  · unfold match_subtitle_to_video
    constructor
    · intro h v hv
      cases hAB : videos.find? (fun w => ruleAB sub w) with
      | some w => rw [hAB] at h; cases h
      | none =>
        rw [hAB] at h
        have h1 := List.find?_eq_none.mp hAB v hv
        have h2 := List.find?_eq_none.mp h v hv
        exact ⟨by simpa using h1, by simpa using h2⟩
    · intro h
      have hAB : videos.find? (fun w => ruleAB sub w) = none :=
        List.find?_eq_none.mpr (fun x hx => by simp [(h x hx).1])
      rw [hAB]
      exact List.find?_eq_none.mpr (fun x hx => by simp [(h x hx).2])

/-- C5 witness: no rule matches `a.srt` against `zzz.mkv`, so the match is
`none`. -/
theorem C5_match_two_pass_witness :
    match_subtitle_to_video "a.srt" ["zzz.mkv"] = none :=
  (C5_match_two_pass "a.srt" ["zzz.mkv"]).2.mpr (by decide)

/-- C6 counterexample: the claim says the subtitle
`Show.Name.S02E05.eng.forced.srt` matches the candidate video
`Show Name - S02E05.1080p.mkv` via the containment rule; in the code the
end-anchored substitution strips only the final `.forced` tag, the
remaining `.eng` and the dot-versus-space separators defeat every rule,
and the match is `none`, not that video. -/
theorem C6_example_match_counterexample :
    match_subtitle_to_video "Show.Name.S02E05.eng.forced.srt"
      ["Show Name - S02E05.1080p.mkv"]
      ≠ some "Show Name - S02E05.1080p.mkv" := by
  decide

/-- C6 (amended): for this subtitle/video pair the matcher returns `none`
(only the trailing `.forced` is stripped and no equality or containment
holds), while the language/variant tagging of `copy_subtitles` applied to
the subtitle's stem still yields the `.en.forced` suffix (language `en`,
variant `forced`). -/
theorem C6_amended_behavior :
    match_subtitle_to_video "Show.Name.S02E05.eng.forced.srt"
      ["Show Name - S02E05.1080p.mkv"] = none
    ∧ String.mk (subLangSuffix (toLowerL (pstem ("Show.Name.S02E05.eng.forced.srt").data)))
        = ".en.forced" := by
  refine ⟨by decide, by decide⟩

/-- C8: when the raw name matches both the `SxxEyy` pattern and the
`NxNN` pattern, `is_tv_show` takes season, episode and show title from
the `SxxEyy` match alone (the first pattern in priority order), wherever
the `NxNN` match sits. -/
theorem C8_pattern_priority (name : List Char) (i se ep j se2 ep2 : Nat)
    (h1 : searchPat matchP1At name 0 = some (i, se, ep))
    (h2 : searchPat matchP2At name 0 = some (j, se2, ep2)) :
    isTvShowL name = some ⟨String.mk (cleanNameL (stripL (name.take i))), se, ep⟩ := by
  have _hp2 := h2
  unfold isTvShowL
  rw [h1]

/-- C8 witness: `A 1x01 S02E03` matches pattern 1 at index 7 and pattern 2
at index 2; the result is taken from pattern 1. -/
theorem C8_pattern_priority_witness :
    isTvShowL ("A 1x01 S02E03".data) = some ⟨"A 1x01", 2, 3⟩ := by
  have h := C8_pattern_priority ("A 1x01 S02E03".data) 7 2 3 2 1 1 (by decide) (by decide)
  rw [h]
  decide

/-- C9 counterexample: the claim says that when collisions never end the
condition is surfaced as a hard failure (CollisionExhaustion) rather than
looping; the loop has no iteration cap, and under the all-paths-exist
filesystem it yields no result at every probe depth — it loops, and no
failure is ever surfaced. -/
theorem C9_no_collision_exhaustion_surfaced : probeDivergesAllExist := by
  intro fuel
  exact getU_allExist_none "d" "b" ".mkv" (some "1080p") fuel

/-- C9 (amended): the probe loop terminates — returns a path after
finitely many probes — whenever the version-1 candidate or some version
≥ 2 does not exist; but the implementation has no iteration cap and
surfaces no CollisionExhaustion failure: when every candidate path exists
it yields no result at any probe depth. -/
theorem C9_loop_termination (ex : String → Bool) (dir base ext : String)
    (res : Option String) :
    ((ex (pjoin dir (candName base res ext)) = false
        ∨ ∃ v, 2 ≤ v ∧ ex (pjoin dir (versionName base res v ext)) = false) →
      ∃ fuel p, get_unique_filename ex dir base ext res fuel = some p)
    ∧ ∀ fuel, get_unique_filename allPathsExist dir base ext res fuel = none := by
  constructor
  · intro h
    rcases h with h | ⟨v, hv2, hfree⟩
    · exact ⟨0, pjoin dir (candName base res ext),
        by unfold get_unique_filename; simp [h]⟩
    · cases hc : ex (pjoin dir (candName base res ext)) with
      | false => exact ⟨0, pjoin dir (candName base res ext),
          by unfold get_unique_filename; simp [hc]⟩
      | true =>
        have hex : ∃ k, ex (pjoin dir (versionName base res (k + 2) ext)) = false := by
          refine ⟨v - 2, ?_⟩
          have hv : v - 2 + 2 = v := by omega
          rw [hv]
          exact hfree
        refine ⟨Nat.find hex + 1,
          pjoin dir (versionName base res (Nat.find hex + 2) ext), ?_⟩
        unfold get_unique_filename
        rw [hc]
        simp only [if_true]
        exact probeLoop_min ex dir base res ext (Nat.find hex + 1) 2 (Nat.find hex + 2)
          (by omega) (by omega)
          (fun w hw1 hw2 => by
            have hk := Nat.find_min hex (m := w - 2) (by omega)
            have hw : w - 2 + 2 = w := by omega
            rw [hw] at hk
            simpa using hk)
          (Nat.find_spec hex)
  · intro fuel
    exact getU_allExist_none dir base ext res fuel

/-- C9 witness: on an empty filesystem the loop returns at once. -/
theorem C9_loop_termination_witness :
    ∃ fuel p, get_unique_filename (fun _ => false) "d" "b" ".mkv" none fuel = some p :=
  (C9_loop_termination (fun _ => false) "d" "b" ".mkv" none).1 (Or.inl rfl)

/-! ## `clean_name` output invariants -/

/-- Characters emitted by the whitespace collapse are spaces or input
characters. -/
theorem collapseWsAux_mem : ∀ (l : List Char) (b : Bool) (x : Char),
    x ∈ collapseWsAux b l → x = ' ' ∨ x ∈ l := by
  intro l
  induction l with
  | nil => intro b x hx; simp [collapseWsAux] at hx
  | cons c rest ih =>
    intro b x hx
    cases hc : isPySpace c with
    | true =>
      cases b with
      | true =>
        simp only [collapseWsAux, hc, if_true] at hx
        rcases ih true x hx with h | h
        · exact Or.inl h
        · exact Or.inr (List.mem_cons_of_mem _ h)
      | false =>
        simp only [collapseWsAux, hc, if_true, Bool.false_eq_true, if_false,
          List.mem_cons] at hx
        rcases hx with rfl | hx
        · exact Or.inl rfl
        · rcases ih true x hx with h | h
          · exact Or.inl h
          · exact Or.inr (List.mem_cons_of_mem _ h)
    | false =>
      simp only [collapseWsAux, hc, Bool.false_eq_true, if_false, List.mem_cons] at hx
      rcases hx with rfl | hx
      · exact Or.inr (List.mem_cons_self _ _)
      · rcases ih false x hx with h | h
        · exact Or.inl h
        · exact Or.inr (List.mem_cons_of_mem _ h)

/-- Every whitespace character the collapse emits is a plain space. -/
theorem collapseWsAux_ws_is_space : ∀ (l : List Char) (b : Bool) (x : Char),
    x ∈ collapseWsAux b l → isPySpace x = true → x = ' ' := by
  intro l
  induction l with
  | nil => intro b x hx; simp [collapseWsAux] at hx
  | cons c rest ih =>
    intro b x hx hws
    cases hc : isPySpace c with
    | true =>
      cases b with
      | true =>
        simp only [collapseWsAux, hc, if_true] at hx
        exact ih true x hx hws
      | false =>
        simp only [collapseWsAux, hc, if_true, Bool.false_eq_true, if_false,
          List.mem_cons] at hx
        rcases hx with rfl | hx
        · rfl
        · exact ih true x hx hws
    | false =>
      simp only [collapseWsAux, hc, Bool.false_eq_true, if_false, List.mem_cons] at hx
      rcases hx with rfl | hx
      · rw [hws] at hc; cases hc
      · exact ih false x hx hws

/-- In skipping state the collapse starts with a non-whitespace
character. -/
theorem collapseWsAux_true_head : ∀ (l : List Char) (c : Char),
    (collapseWsAux true l).head? = some c → isPySpace c = false := by
  intro l
  induction l with
  | nil => intro c h; simp [collapseWsAux] at h
  | cons x rest ih =>
    intro c h
    cases hx : isPySpace x with
    | true =>
      simp only [collapseWsAux, hx, if_true] at h
      exact ih c h
    | false =>
      simp only [collapseWsAux, hx, Bool.false_eq_true, if_false, List.head?_cons,
        Option.some.injEq] at h
      rw [← h]
      exact hx

/-- The collapse leaves no two adjacent whitespace characters. -/
theorem collapseWsAux_chain : ∀ (l : List Char) (b : Bool),
    List.Chain' noTwoWs (collapseWsAux b l) := by
  intro l
  induction l with
  | nil => intro b; simp [collapseWsAux]
  | cons x rest ih =>
    intro b
    cases hx : isPySpace x with
    | true =>
      cases b with
      | true => simpa only [collapseWsAux, hx, if_true] using ih true
      | false =>
        simp only [collapseWsAux, hx, if_true, Bool.false_eq_true, if_false]
        rw [List.chain'_cons']
        exact ⟨fun y hy => Or.inr (collapseWsAux_true_head rest y hy), ih true⟩
    | false =>
      simp only [collapseWsAux, hx, Bool.false_eq_true, if_false]
      rw [List.chain'_cons']
      exact ⟨fun y hy => Or.inl hx, ih false⟩

/-- The head of `dropWhile p` fails `p`. -/
theorem dropWhile_head?_false {p : Char → Bool} : ∀ (l : List Char) (c : Char),
    (l.dropWhile p).head? = some c → p c = false := by
  intro l
  induction l with
  | nil => intro c h; simp at h
  | cons x rest ih =>
    intro c h
    rw [List.dropWhile_cons] at h
    cases hx : p x with
    | true => rw [hx] at h; simp at h; exact ih c h
    | false => rw [hx] at h; simp at h; rw [← h]; exact hx

/-- `dropWhile` is a suffix. -/
theorem dropWhile_suffix_exists {p : Char → Bool} : ∀ l : List Char,
    ∃ t, t ++ l.dropWhile p = l := by
  intro l
  induction l with
  | nil => exact ⟨[], rfl⟩
  | cons x rest ih =>
    cases hx : p x with
    | true =>
      obtain ⟨t, ht⟩ := ih
      exact ⟨x :: t, by simp [List.dropWhile_cons, hx, ht]⟩
    | false => exact ⟨[], by simp [List.dropWhile_cons, hx]⟩

theorem mem_dropWhile {p : Char → Bool} (l : List Char) (x : Char)
    (h : x ∈ l.dropWhile p) : x ∈ l := by
  obtain ⟨t, ht⟩ := dropWhile_suffix_exists (p := p) l
  rw [← ht]
  exact List.mem_append_right t h

/-- Stripping keeps only input characters. -/
theorem mem_stripL (l : List Char) (x : Char) (h : x ∈ stripL l) : x ∈ l := by
  unfold stripL at h
  rw [List.mem_reverse] at h
  have h1 := mem_dropWhile _ _ h
  rw [List.mem_reverse] at h1
  exact mem_dropWhile _ _ h1

/-- The stripped list starts with a non-whitespace character. -/
theorem stripL_head?_false : ∀ (l : List Char) (c : Char),
    (stripL l).head? = some c → isPySpace c = false := by
  intro l c h
  unfold stripL at h
  rw [List.head?_reverse] at h
  obtain ⟨t, ht⟩ := dropWhile_suffix_exists (p := isPySpace) ((l.dropWhile isPySpace).reverse)
  have hne : (l.dropWhile isPySpace).reverse.dropWhile isPySpace ≠ [] := by
    intro hnil
    rw [hnil] at h
    cases h
  have h2 : ((l.dropWhile isPySpace).reverse).getLast? = some c := by
    rw [← ht]
    rw [List.getLast?_append_of_ne_nil t hne]
    exact h
  rw [List.getLast?_reverse] at h2
  exact dropWhile_head?_false l c h2

/-- The stripped list ends with a non-whitespace character. -/
theorem stripL_getLast?_false : ∀ (l : List Char) (c : Char),
    (stripL l).getLast? = some c → isPySpace c = false := by
  intro l c h
  unfold stripL at h
  rw [List.getLast?_reverse] at h
  exact dropWhile_head?_false _ c h

/-- `noTwoWs` is symmetric, so chains transport through `reverse`. -/
theorem chain_noTwoWs_reverse (l : List Char) (h : List.Chain' noTwoWs l) :
    List.Chain' noTwoWs l.reverse := by
  rw [List.chain'_reverse]
  exact h.imp (fun a b hab => hab.symm)

/-- Dropping a while-matching head keeps a chain. -/
theorem chain_dropWhile {p : Char → Bool} : ∀ l : List Char,
    List.Chain' noTwoWs l → List.Chain' noTwoWs (l.dropWhile p) := by
  intro l
  induction l with
  | nil => intro _; simp
  | cons x rest ih =>
    intro h
    rw [List.chain'_cons'] at h
    rw [List.dropWhile_cons]
    cases hx : p x with
    | true => simpa using ih h.2
    | false =>
      simp only [Bool.false_eq_true, if_false]
      rw [List.chain'_cons']
      exact ⟨h.1, h.2⟩

/-- Stripping keeps a chain. -/
theorem chain_stripL (l : List Char) (h : List.Chain' noTwoWs l) :
    List.Chain' noTwoWs (stripL l) := by
  unfold stripL
  exact chain_noTwoWs_reverse _ (chain_dropWhile _ (chain_noTwoWs_reverse _ (chain_dropWhile _ h)))

/-- The replacement of dots and underscores never produces a dot. -/
theorem replDotUnd_ne_dot (c : Char) : replDotUnd c ≠ '.' := by
  unfold replDotUnd
  by_cases h : (c == '.' || c == '_') = true
  · rw [if_pos h]; decide
  · rw [if_neg h]
    simp only [Bool.or_eq_true, beq_iff_eq] at h
    push_neg at h
    exact h.1

/-- The replacement of dots and underscores never produces an
underscore. -/
theorem replDotUnd_ne_und (c : Char) : replDotUnd c ≠ '_' := by
  unfold replDotUnd
  by_cases h : (c == '.' || c == '_') = true
  · rw [if_pos h]; decide
  · rw [if_neg h]
    simp only [Bool.or_eq_true, beq_iff_eq] at h
    push_neg at h
    exact h.2

/-- The invariant bundle of the final collapse-and-strip stage, for an
arbitrary intermediate list `m`. -/
theorem stripCollapse_invariants (m : List Char) :
    (∀ x ∈ stripL (collapseWs m), x = ' ' ∨ x ∈ m)
    ∧ (∀ x ∈ stripL (collapseWs m), isPySpace x = true → x = ' ')
    ∧ List.Chain' noTwoWs (stripL (collapseWs m))
    ∧ (∀ c, (stripL (collapseWs m)).head? = some c → isPySpace c = false)
    ∧ (∀ c, (stripL (collapseWs m)).getLast? = some c → isPySpace c = false) := by
  refine ⟨?_, ?_, ?_, ?_, ?_⟩
  · intro x hx
    exact collapseWsAux_mem m false x (mem_stripL _ _ hx)
  · intro x hx hws
    exact collapseWsAux_ws_is_space m false x (mem_stripL _ _ hx) hws
  · exact chain_stripL _ (collapseWsAux_chain m false)
  · intro c hc
    exact stripL_head?_false _ _ hc
  · intro c hc
    exact stripL_getLast?_false _ _ hc

/-- Unfolding `cleanNameL` into its pipeline stages. -/
theorem cleanNameL_eq (l : List Char) : cleanNameL l
      = stripL (collapseWs ((junkTokens.foldl (fun acc tok => removeTok tok acc)
          (removeBrackets '(' ')' (removeBrackets '[' ']' (splitextRoot l)))).map
            replDotUnd)) := rfl

/-- Unpacking a packed string gives back the character list. -/
theorem string_data_mk (l : List Char) : (String.mk l).data = l := rfl

theorem clean_name_def (x : String) : clean_name x = String.mk (cleanNameL x.data) := rfl

theorem clean_name_data (x : String) : (clean_name x).data = cleanNameL x.data :=
  (congrArg String.data (clean_name_def x)).trans (string_data_mk (cleanNameL x.data))


/-- The shared invariant bundle about a `clean_name` output: no dot, no
underscore, no two adjacent whitespace characters, and non-whitespace at
both ends. -/
theorem cleanNameL_invariants (l : List Char) :
    '.' ∉ cleanNameL l ∧ '_' ∉ cleanNameL l
    ∧ List.Chain' noTwoWs (cleanNameL l)
    ∧ (∀ c, (cleanNameL l).head? = some c → isPySpace c = false)
    ∧ (∀ c, (cleanNameL l).getLast? = some c → isPySpace c = false) := by
  rw [cleanNameL_eq]
  generalize (junkTokens.foldl (fun acc tok => removeTok tok acc)
      (removeBrackets '(' ')' (removeBrackets '[' ']' (splitextRoot l)))) = f
  obtain ⟨hmem, _, hchain, hhead, hlast⟩ := stripCollapse_invariants (f.map replDotUnd)
  refine ⟨?_, ?_, hchain, hhead, hlast⟩
  · intro hdot
    rcases hmem _ hdot with h | h
    · exact absurd h (by decide)
    · obtain ⟨c, _, hc⟩ := List.mem_map.mp h
      exact replDotUnd_ne_dot c hc
  · intro hund
    rcases hmem _ hund with h | h
    · exact absurd h (by decide)
    · obtain ⟨c, _, hc⟩ := List.mem_map.mp h
      exact replDotUnd_ne_und c hc

/-- Every whitespace character in a `clean_name` output is a plain
space. -/
theorem cleanNameL_ws_space (l : List Char) :
    ∀ x ∈ cleanNameL l, isPySpace x = true → x = ' ' := by
  rw [cleanNameL_eq]
  generalize (junkTokens.foldl (fun acc tok => removeTok tok acc)
      (removeBrackets '(' ')' (removeBrackets '[' ']' (splitextRoot l)))) = f
  exact (stripCollapse_invariants (f.map replDotUnd)).2.1

/-- C10: for every input string, the output of `clean_name` (the
normalizer) contains no `.` character, no `_` character, no run of two or
more consecutive whitespace characters, and no leading or trailing
whitespace — the dot/underscore replacement and whitespace collapse run
after extension stripping, bracket removal and junk-token removal, so
nothing reintroduces them. -/
theorem C10_normalize_output_invariants (x : String) :
    '.' ∉ (clean_name x).data ∧ '_' ∉ (clean_name x).data
    ∧ List.Chain' noTwoWs (clean_name x).data
    ∧ (∀ c, (clean_name x).data.head? = some c → isPySpace c = false)
    ∧ (∀ c, (clean_name x).data.getLast? = some c → isPySpace c = false) := by
  rw [clean_name_data]
  exact cleanNameL_invariants x.data

/-- C10 witness: the ends of `clean_name "A_B  C" = "A B C"` are the
non-whitespace characters `A` and `C`. -/
theorem C10_normalize_output_invariants_witness :
    isPySpace 'A' = false ∧ isPySpace 'C' = false := by
  constructor
  · exact (C10_normalize_output_invariants "A_B  C").2.2.2.1 'A' (by decide)
  · exact (C10_normalize_output_invariants "A_B  C").2.2.2.2 'C' (by decide)

/-! ## No-op lemmas for a second `clean_name` pass -/

theorem rfindIdxAux_none (p : Char → Bool) :
    ∀ (l : List Char) (i : Nat) (acc : Option Nat),
      (∀ c ∈ l, p c = false) → rfindIdxAux p l i acc = acc := by
  intro l
  induction l with
  | nil => intro i acc _; rfl
  | cons c rest ih =>
    intro i acc h
    rw [rfindIdxAux]
    rw [h c (List.mem_cons_self _ _)]
    simp only [Bool.false_eq_true, if_false]
    exact ih (i + 1) acc (fun z hz => h z (List.mem_cons_of_mem _ hz))

/-- Without a dot, `splitext` splits nothing. -/
theorem splitextRoot_no_dot (l : List Char) (h : '.' ∉ l) : splitextRoot l = l := by
  have hr : rfindIdx (fun c => c == '.') l = none := by
    unfold rfindIdx
    exact rfindIdxAux_none _ l 0 none
      (fun c hc => beq_eq_false_iff_ne.mpr (fun he => h (he ▸ hc)))
  unfold splitextRoot
  rw [hr]

/-- In buffering state, with no closing bracket and no newline ahead, the
scanner replays the buffer verbatim. -/
theorem rbAux_buffered (o c : Char) :
    ∀ (rest : List Char) (buf : List Char), c ∉ rest → '\n' ∉ rest →
      rbAux o c (some buf) rest = buf.reverse ++ rest := by
  intro rest
  induction rest with
  | nil => intro buf _ _; simp [rbAux]
  | cons x r ih =>
    intro buf hc hn
    have hxc : (x == c) = false :=
      beq_eq_false_iff_ne.mpr (fun he => hc (he ▸ List.mem_cons_self x r))
    have hxn : (x == '\n') = false :=
      beq_eq_false_iff_ne.mpr (fun he => hn (he ▸ List.mem_cons_self x r))
    rw [rbAux, hxc, hxn]
    simp only [Bool.false_eq_true, if_false]
    rw [ih (x :: buf) (fun hm => hc (List.mem_cons_of_mem _ hm))
      (fun hm => hn (List.mem_cons_of_mem _ hm))]
    simp

/-- A bracket-removal pass with no matchable pair and no newline changes
nothing. -/
theorem removeBrackets_noop (o c : Char) :
    ∀ l : List Char, hasPair o c l = false → '\n' ∉ l → removeBrackets o c l = l := by
  intro l
  induction l with
  | nil => intro _ _; rfl
  | cons x rest ih =>
    intro hp hn
    rw [hasPair] at hp
    simp only [Bool.or_eq_false_iff, Bool.and_eq_false_iff] at hp
    unfold removeBrackets
    rw [rbAux]
    cases hxo : (x == o) with
    | true =>
      have hany : rest.any (fun y => y == c) = false := by
        rcases hp.1 with h | h
        · rw [hxo] at h; cases h
        · exact h
      have hcr : c ∉ rest := by
        intro hm
        have hx2 : (rest.any fun y => y == c) = true :=
          List.any_eq_true.mpr ⟨c, hm, beq_self_eq_true c⟩
        rw [hany] at hx2
        cases hx2
      simp only [hxo, if_true]
      rw [rbAux_buffered o c rest [x] hcr (fun hm => hn (List.mem_cons_of_mem _ hm))]
      rfl
    | false =>
      simp only [hxo, Bool.false_eq_true, if_false]
      have := ih hp.2 (fun hm => hn (List.mem_cons_of_mem _ hm))
      unfold removeBrackets at this
      rw [this]

/-- A token-removal pass over a list that contains no occurrence of the
token changes nothing. -/
theorem rmAux_noop (tok : List Char) :
    ∀ l : List Char, ciContains tok l = false → rmAux tok 0 l = l := by
  intro l
  induction l with
  | nil => intro _; rfl
  | cons x rest ih =>
    intro h
    rw [ciContains] at h
    simp only [Bool.or_eq_false_iff] at h
    rw [rmAux, h.1]
    simp only [Bool.false_eq_true, if_false]
    rw [ih h.2]

theorem removeTok_noop (tok l : List Char) (h : ciContains tok l = false) :
    removeTok tok l = l := by
  unfold removeTok
  exact rmAux_noop tok l h

theorem foldl_removeTok_noop :
    ∀ (toks : List (List Char)) (l : List Char),
      (∀ tok ∈ toks, ciContains tok l = false) →
      toks.foldl (fun acc tok => removeTok tok acc) l = l := by
  intro toks
  induction toks with
  | nil => intro l _; rfl
  | cons t ts ih =>
    intro l h
    rw [List.foldl_cons, removeTok_noop t l (h t (List.mem_cons_self _ _))]
    exact ih l (fun tok htok => h tok (List.mem_cons_of_mem _ htok))

theorem map_id_of_fixed {α : Type} (f : α → α) :
    ∀ l : List α, (∀ c ∈ l, f c = c) → l.map f = l := by
  intro l
  induction l with
  | nil => intro _; rfl
  | cons x rest ih =>
    intro h
    rw [List.map_cons, h x (List.mem_cons_self _ _),
      ih (fun z hz => h z (List.mem_cons_of_mem _ hz))]

/-- The whitespace collapse fixes a list whose whitespace is single plain
spaces with no two adjacent. -/
theorem collapseWsAux_noop :
    ∀ (l : List Char) (b : Bool),
      (∀ x ∈ l, isPySpace x = true → x = ' ') →
      List.Chain' noTwoWs l →
      (b = true → ∀ c, l.head? = some c → isPySpace c = false) →
      collapseWsAux b l = l := by
  intro l
  induction l with
  | nil => intro b _ _ _; rfl
  | cons x rest ih =>
    intro b hws hchain hhead
    rw [List.chain'_cons'] at hchain
    have hsub : ∀ z ∈ rest, isPySpace z = true → z = ' ' :=
      fun z hz => hws z (List.mem_cons_of_mem _ hz)
    cases b with
    | true =>
      have hx : isPySpace x = false := hhead rfl x rfl
      rw [collapseWsAux, hx]
      simp only [Bool.false_eq_true, if_false]
      rw [ih false hsub hchain.2 (fun hb => absurd hb (by decide))]
    | false =>
      cases hx : isPySpace x with
      | true =>
        have hx' : x = ' ' := hws x (List.mem_cons_self _ _) hx
        have hh : ∀ c, rest.head? = some c → isPySpace c = false := by
          intro c hc
          rcases hchain.1 c hc with h | h
          · rw [hx] at h; cases h
          · exact h
        rw [collapseWsAux, hx]
        simp only [if_true]
        rw [ih true hsub hchain.2 (fun _ => hh), hx']
        simp
      | false =>
        rw [collapseWsAux, hx]
        simp only [Bool.false_eq_true, if_false]
        rw [ih false hsub hchain.2 (fun hb => absurd hb (by decide))]

theorem collapseWs_noop (l : List Char)
    (hws : ∀ x ∈ l, isPySpace x = true → x = ' ')
    (hchain : List.Chain' noTwoWs l) : collapseWs l = l := by
  unfold collapseWs
  exact collapseWsAux_noop l false hws hchain (fun hb => absurd hb (by decide))

theorem dropWhile_noop {p : Char → Bool} (l : List Char)
    (h : ∀ c, l.head? = some c → p c = false) : l.dropWhile p = l := by
  cases l with
  | nil => rfl
  | cons x rest =>
    rw [List.dropWhile_cons, h x rfl]
    simp

theorem stripL_noop (l : List Char)
    (hh : ∀ c, l.head? = some c → isPySpace c = false)
    (hl : ∀ c, l.getLast? = some c → isPySpace c = false) : stripL l = l := by
  unfold stripL
  rw [dropWhile_noop l hh]
  rw [dropWhile_noop l.reverse (fun c hc => hl c (by rw [List.head?_reverse] at hc; exact hc))]
  exact List.reverse_reverse l

/-- C4 counterexample: normalize is not idempotent.  In `xx264264` the
single `x264`-removal pass deletes the occurrence starting at index 1,
and the surviving characters `x` and `264` join into a fresh `x264`, so
`clean_name "xx264264" = "x264"` while a second application gives `""`. -/
theorem C4_idempotence_counterexample :
    clean_name (clean_name "xx264264") ≠ clean_name "xx264264" := by
  decide

/-- C4 (amended): normalize is idempotent on every input whose normalized
form contains no removable bracket pair (`[`…`]` or `(`…`)`) and no
case-insensitive occurrence of a junk token — the only material a second
pass could still remove. -/
theorem C4_normalize_idempotent_conditional (x : String)
    (h1 : hasPair '[' ']' (clean_name x).data = false)
    (h2 : hasPair '(' ')' (clean_name x).data = false)
    (h3 : ∀ tok ∈ junkTokens, ciContains tok (clean_name x).data = false) :
    clean_name (clean_name x) = clean_name x := by
  have hinv := cleanNameL_invariants x.data
  have hws := cleanNameL_ws_space x.data
  simp only [clean_name_data] at h1 h2 h3
  have key : cleanNameL (cleanNameL x.data) = cleanNameL x.data := by
    revert h1 h2 h3 hinv hws
    generalize cleanNameL x.data = y
    intro hinv hws h1 h2 h3
    have hdot := hinv.1
    have hund := hinv.2.1
    have hchain := hinv.2.2.1
    have hhead := hinv.2.2.2.1
    have hlast := hinv.2.2.2.2
    have hnl : ('\n' : Char) ∉ y := fun hm => absurd (hws '\n' hm (by decide)) (by decide)
    have hfix : ∀ c ∈ y, replDotUnd c = c := by
      intro c hc
      have hc1 : (c == '.') = false := beq_eq_false_iff_ne.mpr (fun he => hdot (he ▸ hc))
      have hc2 : (c == '_') = false := beq_eq_false_iff_ne.mpr (fun he => hund (he ▸ hc))
      unfold replDotUnd
      rw [hc1, hc2]
      simp
    rw [cleanNameL_eq y]
    rw [splitextRoot_no_dot y hdot]
    rw [removeBrackets_noop '[' ']' y h1 hnl]
    rw [removeBrackets_noop '(' ')' y h2 hnl]
    rw [foldl_removeTok_noop junkTokens y h3]
    rw [map_id_of_fixed replDotUnd y hfix]
    rw [collapseWs_noop y hws hchain]
    exact stripL_noop y hhead hlast
  calc clean_name (clean_name x)
      = String.mk (cleanNameL ((clean_name x).data)) := clean_name_def (clean_name x)
    _ = String.mk (cleanNameL (cleanNameL x.data)) := by rw [clean_name_data]
    _ = String.mk (cleanNameL x.data) := by rw [key]
    _ = clean_name x := (clean_name_def x).symm

/-- C4 witness: `clean_name "Some.Movie.2019" = "Some Movie"` has no
bracket pair and no junk token, so a second pass fixes it. -/
theorem C4_normalize_idempotent_conditional_witness :
    clean_name (clean_name "Some.Movie.2019") = clean_name "Some.Movie.2019" :=
  C4_normalize_idempotent_conditional "Some.Movie.2019" (by decide) (by decide) (by decide)

/-! ## `SxxEyy` parsing lemmas -/

/-- The trailing episode group evaluates to the integer of its digits:
greedily two digits, one digit when the following character is not a
digit. -/
theorem epDigits_eval (ed post : List Char)
    (hed1 : ed.length = 1 ∨ ed.length = 2)
    (hed2 : ∀ c ∈ ed, isDigit c = true)
    (hpost : ed.length = 1 → ∀ c, post.head? = some c → isDigit c = false) :
    epDigits (ed ++ post) = some (natOfDigits ed) := by
  rcases hed1 with h1 | h2
  · obtain ⟨d, rfl⟩ := List.length_eq_one.mp h1
    have hd : isDigit d = true := hed2 d (by simp)
    cases post with
    | nil => simp [epDigits, hd, natOfDigits]
    | cons p ps =>
      have hp : isDigit p = false := hpost rfl p rfl
      simp [epDigits, hd, hp, natOfDigits]
  · obtain ⟨a, b, rfl⟩ := List.length_eq_two.mp h2
    have ha : isDigit a = true := hed2 a (by simp)
    have hb : isDigit b = true := hed2 b (by simp)
    cases post with
    | nil => simp [epDigits, ha, hb, natOfDigits]
    | cons p ps => simp [epDigits, ha, hb, natOfDigits]

/-- Pattern-1 match at a one-digit season token. -/
theorem matchP1At_token1 (s e d1 : Char) (ed post : List Char)
    (hss : isSChar s = true) (hee : isEChar e = true) (hEdig : isDigit e = false)
    (hd1 : isDigit d1 = true)
    (heval : epDigits (ed ++ post) = some (natOfDigits ed)) :
    matchP1At (s :: d1 :: e :: (ed ++ post)) = some (digitVal d1, natOfDigits ed) := by
  simp [matchP1At, hss, hd1, hEdig, afterSeason, hee, heval]

/-- Pattern-1 match at a two-digit season token. -/
theorem matchP1At_token2 (s e d1 d2 : Char) (ed post : List Char)
    (hss : isSChar s = true) (hee : isEChar e = true)
    (hd1 : isDigit d1 = true) (hd2 : isDigit d2 = true)
    (heval : epDigits (ed ++ post) = some (natOfDigits ed)) :
    matchP1At (s :: d1 :: d2 :: e :: (ed ++ post))
      = some (10 * digitVal d1 + digitVal d2, natOfDigits ed) := by
  simp [matchP1At, hss, hd1, hd2, afterSeason, hee, heval]

/-- Pattern 1 cannot match at a position that does not start with `S` or
`s`. -/
theorem matchP1At_not_s (x : Char) (hx : isSChar x = false) (l : List Char) :
    matchP1At (x :: l) = none := by
  cases l with
  | nil => rfl
  | cons d rest => simp [matchP1At, hx]

/-- `re.search` skips a prefix containing no `S`/`s`. -/
theorem searchPat_pre (pre : List Char) (hpre : ∀ c ∈ pre, isSChar c = false) :
    ∀ (tk : List Char) (i : Nat), tk ≠ [] →
      searchPat matchP1At (pre ++ tk) i = searchPat matchP1At tk (i + pre.length) := by
  induction pre with
  | nil => intro tk i _; simp
  | cons x rest ih =>
    intro tk i htk
    have hx : isSChar x = false := hpre x (List.mem_cons_self _ _)
    have hm : matchP1At (x :: (rest ++ tk)) = none := matchP1At_not_s x hx _
    rw [List.cons_append]
    cases hcons : rest ++ tk with
    | nil =>
      rcases List.append_eq_nil.mp hcons with ⟨_, h2⟩
      exact absurd h2 htk
    | cons z zs =>
      rw [← hcons, searchPat, hm]
      rw [ih (fun c hc => hpre c (List.mem_cons_of_mem _ hc)) tk (i + 1) htk]
      have harith : i + 1 + rest.length = i + (x :: rest).length := by
        simp only [List.length_cons]
        omega
      rw [harith]

/-- A hit at the current position stops the search. -/
theorem searchPat_cons_some (m : List Char → Option (Nat × Nat)) (x : Char)
    (l : List Char) (i a b : Nat) (h : m (x :: l) = some (a, b)) :
    searchPat m (x :: l) i = some (i, a, b) := by
  rw [searchPat, h]

/-- A pattern-1 hit determines the whole of `is_tv_show`. -/
theorem isTvShowL_of_p1 (name : List Char) (i se ep : Nat)
    (h : searchPat matchP1At name 0 = some (i, se, ep)) :
    isTvShowL name = some ⟨String.mk (cleanNameL (stripL (name.take i))), se, ep⟩ := by
  unfold isTvShowL
  rw [h]

/-- C7 counterexample: the claim computes `show_title` as normalize
applied to the raw substring preceding the match start; the code first
`str.strip`s that substring and the two differ.  For `" .txtS1E2"` the
prefix is `" .txt"`: `splitext` splits `" .txt"` at the dot (a non-dot
character precedes it) so normalize gives `""`, while the code strips the
space first, `splitext` then sees a pure leading-dot name and keeps it,
and the title becomes `"txt"`. -/
theorem C7_show_title_strip_counterexample :
    is_tv_show " .txtS1E2" ≠ some ⟨clean_name " .txt", 1, 2⟩ := by
  decide

/-- C7 (amended): for every name of the form `pre ++ S‹sd›E‹ed› ++ post`
with 1-or-2-digit groups, where `pre` contains no `S`/`s` (so this is the
leftmost pattern-1 match) and a 1-digit episode group is not followed by a
further digit, `is_tv_show` returns the Episode result with season and
episode equal to the integers of the digit groups — regardless of leading
zeros — and `show_title` equal to normalize applied to the
whitespace-stripped `pre`. -/
theorem C7_sxxeyy_parsing (pre sd ed post : List Char) (s e : Char)
    (hs : s = 'S' ∨ s = 's') (he : e = 'E' ∨ e = 'e')
    (hpre : ∀ c ∈ pre, isSChar c = false)
    (hsd1 : sd.length = 1 ∨ sd.length = 2) (hsd2 : ∀ c ∈ sd, isDigit c = true)
    (hed1 : ed.length = 1 ∨ ed.length = 2) (hed2 : ∀ c ∈ ed, isDigit c = true)
    (hpost : ed.length = 1 → ∀ c, post.head? = some c → isDigit c = false) :
    isTvShowL (pre ++ s :: (sd ++ e :: (ed ++ post)))
      = some ⟨String.mk (cleanNameL (stripL pre)), natOfDigits sd, natOfDigits ed⟩ := by
  have hss : isSChar s = true := by rcases hs with rfl | rfl <;> decide
  have hee : isEChar e = true := by rcases he with rfl | rfl <;> decide
  have hEdig : isDigit e = false := by rcases he with rfl | rfl <;> decide
  have heval : epDigits (ed ++ post) = some (natOfDigits ed) :=
    epDigits_eval ed post hed1 hed2 hpost
  have htok : matchP1At (s :: (sd ++ e :: (ed ++ post))) = some (natOfDigits sd, natOfDigits ed) := by
    rcases hsd1 with h1 | h2
    · obtain ⟨d1, rfl⟩ := List.length_eq_one.mp h1
      have hd1 : isDigit d1 = true := hsd2 d1 (by simp)
      rw [List.singleton_append]
      rw [matchP1At_token1 s e d1 ed post hss hee hEdig hd1 heval]
      simp [natOfDigits]
    · obtain ⟨d1, d2, rfl⟩ := List.length_eq_two.mp h2
      have hd1 : isDigit d1 = true := hsd2 d1 (by simp)
      have hd2 : isDigit d2 = true := hsd2 d2 (by simp)
      rw [List.cons_append, List.cons_append, List.nil_append]
      rw [matchP1At_token2 s e d1 d2 ed post hss hee hd1 hd2 heval]
      simp [natOfDigits]
  have hsearch : searchPat matchP1At (pre ++ s :: (sd ++ e :: (ed ++ post))) 0
      = some (pre.length, natOfDigits sd, natOfDigits ed) := by
    rw [searchPat_pre pre hpre _ 0 (List.cons_ne_nil _ _)]
    rw [searchPat_cons_some matchP1At s _ _ _ _ htok]
    rw [Nat.zero_add]
  rw [isTvShowL_of_p1 _ _ _ _ hsearch]
  rw [List.take_left]

/-- C7 witness: `S01E01` and `S1E1` both parse as season 1, episode 1 with
the same show title. -/
theorem C7_sxxeyy_parsing_witness :
    is_tv_show "The Wire S01E01" = some ⟨"The Wire", 1, 1⟩
    ∧ is_tv_show "The Wire S1E1" = some ⟨"The Wire", 1, 1⟩ := by
  constructor
  · have h := C7_sxxeyy_parsing ("The Wire ".data) ['0', '1'] ['0', '1'] [] 'S' 'E'
      (Or.inl rfl) (Or.inl rfl) (by decide) (by decide) (by decide) (by decide) (by decide)
      (fun hlen => absurd hlen (by decide))
    have heq : ("The Wire S01E01".data)
        = "The Wire ".data ++ 'S' :: (['0', '1'] ++ 'E' :: (['0', '1'] ++ [])) := by decide
    unfold is_tv_show
    rw [heq, h]
    decide
  · have h := C7_sxxeyy_parsing ("The Wire ".data) ['1'] ['1'] [] 'S' 'E'
      (Or.inl rfl) (Or.inl rfl) (by decide) (by decide) (by decide) (by decide) (by decide)
      (fun _ c hc => by cases hc)
    have heq : ("The Wire S1E1".data)
        = "The Wire ".data ++ 'S' :: (['1'] ++ 'E' :: (['1'] ++ [])) := by decide
    unfold is_tv_show
    rw [heq, h]
    decide
